import Mathlib

/- Formal model of the cross-mcp repository's document store and search
pipeline (src/services/DocumentService.ts, src/services/SearchService.ts,
and the tool-call facade in src/index.ts).

JS strings are modelled as lists of characters.  Remote I/O (axios / cheerio
HTML extraction / the GitHub API) is modelled as an injected fetch
environment, following the repository's own factoring: per-source fetching
either yields extracted raw content or fails (an exception, modelled as
none).  Timestamps are naturals (milliseconds). -/

abbrev Str := List Char

/-- JS String.prototype.substring: both arguments are clamped to the string
bounds and swapped when given out of order. -/
def jsSubstring (s : Str) (a b : Nat) : Str :=
  let a1 := min a s.length
  let b1 := min b s.length
  (s.take (max a1 b1)).drop (min a1 b1)

def isJsSpace (c : Char) : Bool :=
  c = ' ' || c = '\t' || c = '\n' || c = '\r'

/-- JS String.prototype.trim, restricted to the common whitespace
characters. -/
def jsTrim (s : Str) : Str :=
  ((s.dropWhile isJsSpace).reverse.dropWhile isJsSpace).reverse

/-- Contiguous-segment test: JS String.prototype.includes. -/
def isSeg (s l : Str) : Bool :=
  (List.range (l.length + 1)).any fun i => (l.drop i).take s.length == s

/-- JS Map.prototype.set: replaces the value at an existing key in place
(keys keep their original insertion position), otherwise appends a fresh
entry at the end. -/
def mapSet {α : Type} (m : List (Str × α)) (k : Str) (v : α) : List (Str × α) :=
  match m with
  | [] => [(k, v)]
  | (k1, v1) :: rest => if k1 = k then (k, v) :: rest else (k1, v1) :: mapSet rest k v

/-- JS Map.prototype.get, with absence as none. -/
def mapGet {α : Type} (m : List (Str × α)) (k : Str) : Option α :=
  match m with
  | [] => none
  | (k1, v1) :: rest => if k1 = k then some v1 else mapGet rest k

def mapKeys {α : Type} (m : List (Str × α)) : List Str :=
  m.map Prod.fst

/- ---------------------------------------------------------------------
DocumentService (src/services/DocumentService.ts)
--------------------------------------------------------------------- -/

/-- The TS union 'documentation' | 'github' | 'example' for the optional
CrossDocument.type tag ('example' is spelled exampleDoc here because
example is a Lean keyword). -/
inductive DocType where
  | documentation
  | github
  | exampleDoc
deriving DecidableEq, Repr

structure CrossDocument where
  id : Str
  title : Str
  content : Str
  url : Str
  category : Str
  lastModified : Option Str
  type : Option DocType
deriving DecidableEq, Repr

def baseUrl : Str := "https://docs.crosstoken.io".toList

/-- The hard-coded list of documentation page paths fetched by
fetchAllDocuments. -/
def mainPages : List Str :=
  [ "/docs/dev_getting-started".toList,
    "/docs/sc_solidity".toList,
    "/docs/sc_erc20-interface".toList,
    "/docs/sc_sample-erc20-contract".toList,
    "/docs/sc_sample-erc721-contract".toList,
    "/docs/sc_sample-erc1155-contract".toList,
    "/docs/sc_deploy-foundry".toList,
    "/docs/sc_deploy-hardhat".toList,
    "/docs/ch_transactions".toList,
    "/docs/ch_fee-delegation".toList,
    "/docs/ch_fee-delegation-tx-type".toList,
    "/docs/ch_checkpoint".toList,
    "/docs/ch_crossx-dex".toList,
    "/docs/sdkjs_installation".toList,
    "/docs/sdkjs_hooks".toList,
    "/docs/sdkjs_controllers".toList,
    "/docs/sdkjs_connection".toList,
    "/docs/sdkjs_token-transfer".toList,
    "/docs/sdkjs_signature".toList,
    "/docs/sdkjs_custom-data".toList,
    "/docs/sdkjs_balance".toList,
    "/docs/sdkjs_version-history".toList,
    "/docs/sdkuni_installation".toList,
    "/docs/testnet-faucet".toList,
    "/docs/crossx_getting-started".toList,
    "/docs/crossx_create-wallet".toList,
    "/docs/crossx_bridge".toList,
    "/docs/crossx_dex".toList ]

/-- DocumentService.getCategoryFromPath: first matching substring rule
wins, in source order. -/
def getCategoryFromPath (path : Str) : Str :=
  if isSeg "sc_".toList path then "smart-contract".toList
  else if isSeg "sdkjs_".toList path then "sdk-js".toList
  else if isSeg "sdkuni_".toList path then "sdk-unity".toList
  else if isSeg "ch_".toList path then "chain".toList
  else if isSeg "crossx_".toList path then "crossx".toList
  else if isSeg "getting-started".toList path || isSeg "testnet-faucet".toList path then
    "getting-started".toList
  else "general".toList

/-- DocumentService.generateDocumentId: strip one leading "/docs/", then
replace every '/' by '_'. -/
def generateDocumentId (path : Str) : Str :=
  let stripped := if List.isPrefixOf "/docs/".toList path then path.drop 6 else path
  stripped.map fun c => if c = '/' then '_' else c

/-- The raw content a successful page fetch yields once cheerio title and
main-content extraction (an external collaborator, spec section 1) has
run. -/
structure PageRaw where
  title : Str
  content : Str
deriving DecidableEq, Repr

structure RepoInfo where
  name : Str
  description : Str
  stars : Nat
  language : Str
  licenseName : Str
  htmlUrl : Str
  updatedAt : Str
deriving DecidableEq, Repr

structure GhRepo where
  owner : Str
  repo : Str
  files : List Str
deriving DecidableEq, Repr

/-- The hard-coded repositories list in fetchGitHubRepositories. -/
def repositories : List GhRepo :=
  [ { owner := "to-nexus".toList, repo := "cross-sdk-js".toList,
      files := ["readme.md".toList, "package.json".toList] },
    { owner := "to-nexus".toList, repo := "cross-sdk-js-sample".toList,
      files := ["README.md".toList, "package.json".toList] } ]

/-- The injected fetcher: page gives the extracted title/content of a
documentation page (none = the axios request or parse threw), repoInfo the
repository metadata, repoFile the decoded file content together with its
sha (none = that file fetch threw). -/
structure FetchEnv where
  page : Str → Option PageRaw
  repoInfo : Str → Str → Option RepoInfo
  repoFile : Str → Str → Str → Option (Str × Str)
  nowIso : Str

def mkPageDoc (env : FetchEnv) (path : Str) (pr : PageRaw) : CrossDocument :=
  { id := generateDocumentId path
    title := pr.title
    content := pr.content
    url := baseUrl ++ path
    category := getCategoryFromPath path
    lastModified := some env.nowIso
    type := none }

/-- DocumentService.fetchDocument: none models the catch branch returning
null. -/
def fetchDocument (env : FetchEnv) (path : Str) : Option CrossDocument :=
  (env.page path).map (mkPageDoc env path)

abbrev Cache := List (Str × CrossDocument)

/-- The per-path loop of fetchAllDocuments: a failed fetch is logged and
skipped, a successful one is stored under its derived id. -/
def processPages (env : FetchEnv) : List Str → Cache → Cache
  | [], c => c
  | path :: ps, c =>
      processPages env ps
        (match fetchDocument env path with
         | some d => mapSet c d.id d
         | none => c)

def ghFileId (owner repo file : Str) : Str :=
  "github_".toList ++ owner ++ "_".toList ++ repo ++ "_".toList
    ++ file.map (fun c => if c = '.' then '_' else c)

def ghSummaryId (owner repo : Str) : Str :=
  "github_".toList ++ owner ++ "_".toList ++ repo ++ "_summary".toList

def ghDocType (repo : Str) : Option DocType :=
  some (if isSeg "sample".toList repo then DocType.exampleDoc else DocType.github)

def mkGhFileDoc (owner repo file content sha : Str) : CrossDocument :=
  { id := ghFileId owner repo file
    title := owner ++ "/".toList ++ repo ++ " - ".toList ++ file
    content := content
    url := "https://github.com/".toList ++ owner ++ "/".toList ++ repo
      ++ "/blob/main/".toList ++ file
    category := "github".toList
    lastModified := some sha
    type := ghDocType repo }

def orFallback (s fallback : Str) : Str :=
  if s = [] then fallback else s

def mkGhSummaryDoc (owner repo : Str) (info : RepoInfo) : CrossDocument :=
  { id := ghSummaryId owner repo
    title := owner ++ "/".toList ++ repo ++ " Repository".toList
    content := "Repository: ".toList ++ info.name
      ++ "\nDescription: ".toList ++ orFallback info.description "No description".toList
      ++ "\nStars: ".toList ++ (Nat.repr info.stars).toList
      ++ "\nLanguage: ".toList ++ info.language
      ++ "\nLicense: ".toList ++ orFallback info.licenseName "No license".toList
      ++ "\nURL: ".toList ++ info.htmlUrl
    url := info.htmlUrl
    category := "github".toList
    lastModified := some info.updatedAt
    type := ghDocType repo }

/-- The per-file loop of fetchGitHubRepository: a file is stored only when
its fetch succeeded and its content field is truthy (nonempty). -/
def processRepoFiles (env : FetchEnv) (owner repo : Str) : List Str → Cache → Cache
  | [], c => c
  | f :: fs, c =>
      processRepoFiles env owner repo fs
        (match env.repoFile owner repo f with
         | some (content, sha) =>
             if content ≠ [] then
               mapSet c (ghFileId owner repo f) (mkGhFileDoc owner repo f content sha)
             else c
         | none => c)

/-- DocumentService.fetchGitHubRepository: when the repository-info request
throws, the whole repository is skipped; otherwise each listed file is
attempted and a summary document is always stored. -/
def fetchGitHubRepository (env : FetchEnv) (r : GhRepo) (c : Cache) : Cache :=
  match env.repoInfo r.owner r.repo with
  | none => c
  | some info =>
      mapSet (processRepoFiles env r.owner r.repo r.files c)
        (ghSummaryId r.owner r.repo) (mkGhSummaryDoc r.owner r.repo info)

def processGithub (env : FetchEnv) : List GhRepo → Cache → Cache
  | [], c => c
  | r :: rs, c => processGithub env rs (fetchGitHubRepository env r c)

def ghRepoSourceName (r : GhRepo) : Str :=
  r.owner ++ "/".toList ++ r.repo

/-- Every source a full refresh pass attempts, in order: the documentation
pages, then the two GitHub repositories. -/
def configuredSources : List Str :=
  mainPages ++ repositories.map ghRepoSourceName

structure DocState where
  cache : Cache
  last : Nat
deriving DecidableEq, Repr

def cacheExpiryMs : Nat := 1000 * 60 * 60

/-- DocumentService.fetchAllDocuments, instrumented with the list of
sources the call actually attempted to fetch (empty when the cache gate
short-circuits the pass). -/
def fetchAllDocuments (env : FetchEnv) (now : Nat) (st : DocState) : DocState × List Str :=
  if now - st.last < cacheExpiryMs ∧ st.cache ≠ [] then (st, [])
  else
    ({ cache := processGithub env repositories (processPages env mainPages st.cache),
       last := now },
     configuredSources)

/-- DocumentService.getDocumentById: refresh if stale, then exact lookup
(get returns undefined, mapped to null, for a missing id). -/
def getDocumentById (env : FetchEnv) (now : Nat) (st : DocState) (documentId : Str) :
    DocState × Option CrossDocument × List Str :=
  let r := fetchAllDocuments env now st
  (r.1, mapGet r.1.cache documentId, r.2)

/-- DocumentService.getAllDocuments: refresh if stale, then the snapshot
values in insertion order. -/
def getAllDocuments (env : FetchEnv) (now : Nat) (st : DocState) :
    DocState × List CrossDocument × List Str :=
  let r := fetchAllDocuments env now st
  (r.1, r.1.cache.map Prod.snd, r.2)

/- ---------------------------------------------------------------------
SearchService (src/services/SearchService.ts)

The Fuse.js index is the external ranking collaborator (spec section 9):
searchDocuments is parameterized by the index's search function, which
returns the ranked result list for a query under a result-count limit.
With includeMatches, every reported match carries the text of the matched
field (title, content or category - the three indexed keys) and the
inclusive index pairs of the matched spans within it.
--------------------------------------------------------------------- -/

structure FuseMatch where
  value : Str
  indices : List (Nat × Nat)
deriving DecidableEq, Repr

structure FuseResult where
  item : CrossDocument
  score : Option ℚ
  matchList : List FuseMatch
deriving DecidableEq, Repr

structure SearchResult where
  document : CrossDocument
  score : ℚ
  highlights : List Str
deriving DecidableEq, Repr

/-- The Fuse.js includeMatches contract: each match's value is the text of
one of the three indexed fields of the matched item. -/
def MatchesWF (fuseSearch : Str → Nat → List FuseResult) : Prop :=
  ∀ q n, ∀ r ∈ fuseSearch q n, ∀ m ∈ r.matchList,
    m.value = r.item.title ∨ m.value = r.item.content ∨ m.value = r.item.category

/-- The context window around one matched span: up to 50 characters before
its start, through at most 50 characters past its (inclusive) end, clipped
to the bounds of the matched field's text. -/
def highlightWindow (value : Str) (se : Nat × Nat) : Str :=
  jsSubstring value (se.1 - 50) (min value.length (se.2 + 50))

/-- The inner loop of SearchService.extractHighlights over one match's
index pairs.  Note the guard tests the untrimmed window for membership in
the accumulator while the trimmed window is what gets pushed, exactly as
the source does. -/
def pushHighlights (value : Str) : List (Nat × Nat) → List Str → List Str
  | [], acc => acc
  | se :: rest, acc =>
      pushHighlights value rest
        (if jsTrim (highlightWindow value se) ≠ [] ∧
            ¬acc.contains (highlightWindow value se) then
          acc ++ [jsTrim (highlightWindow value se)]
         else acc)

def collectHighlights : List FuseMatch → List Str → List Str
  | [], acc => acc
  | m :: ms, acc =>
      collectHighlights ms (if m.value ≠ [] then pushHighlights m.value m.indices acc else acc)

/-- SearchService.extractHighlights: walk every match hit, collect context
windows, keep at most 3. -/
def extractHighlights (result : FuseResult) (_query : Str) : List Str :=
  (collectHighlights result.matchList []).take 3

def mkSearchResult (query : Str) (r : FuseResult) : SearchResult :=
  { document := r.item
    score := r.score.getD 0
    highlights := extractHighlights r query }

/-- SearchService.searchDocuments: query the index with the limit capped at
50, post-filter by category unless it is "all", shape the results, truncate
to the requested limit. -/
def searchDocuments (fuseSearch : Str → Nat → List FuseResult)
    (query : Str) (category : Str) (limit : Nat) : List SearchResult :=
  let searchResults := fuseSearch query (min limit 50)
  let filteredResults :=
    if category = "all".toList then searchResults
    else searchResults.filter fun r => r.item.category == category
  let results := filteredResults.map (mkSearchResult query)
  results.take limit

/- ---------------------------------------------------------------------
Tool-call facade (src/index.ts, CrossMCPServer.setupToolHandlers)

The four tool handlers await service calls that can throw (for instance
searchDocuments' own "Search index not available"); each handler's outcome
for the incoming request is a parameter of type Except.  The dispatch
switch and the surrounding try/catch are modelled exactly.
--------------------------------------------------------------------- -/

structure ToolContent where
  type : Str
  text : Str
deriving DecidableEq, Repr

structure ToolResponse where
  content : List ToolContent
deriving DecidableEq, Repr

def registeredTools : List Str :=
  [ "get-cross-documents".toList,
    "document-by-id".toList,
    "get-testnet-info".toList,
    "get-github-resources".toList ]

/-- The switch inside the CallToolRequestSchema handler: route to the named
tool's handler, or throw Unknown tool for any other name. -/
def callToolRaw (hDocs hById hTestnet hGithub : Except Str ToolResponse)
    (name : Str) : Except Str ToolResponse :=
  if name = "get-cross-documents".toList then hDocs
  else if name = "document-by-id".toList then hById
  else if name = "get-testnet-info".toList then hTestnet
  else if name = "get-github-resources".toList then hGithub
  else Except.error ("Unknown tool: ".toList ++ name)

def errorEnvelope (msg : Str) : ToolResponse :=
  { content := [{ type := "text".toList, text := "Error: ".toList ++ msg }] }

/-- The full request handler: the catch block converts any thrown error
into a text payload prefixed with "Error: ". -/
def handleCallTool (hDocs hById hTestnet hGithub : Except Str ToolResponse)
    (name : Str) : ToolResponse :=
  match callToolRaw hDocs hById hTestnet hGithub name with
  | Except.ok r => r
  | Except.error m => errorEnvelope m

/-- A well-formed response envelope: at least one content item, every item
of type "text". -/
def WellFormedResponse (r : ToolResponse) : Prop :=
  r.content ≠ [] ∧ ∀ c ∈ r.content, c.type = "text".toList

/- ---------------------------------------------------------------------
Lemmas about the refresh pass
--------------------------------------------------------------------- -/

/-- Every document id the GitHub pass can ever write. -/
def ghDocIds (rs : List GhRepo) : List Str :=
  rs.flatMap fun r => r.files.map (ghFileId r.owner r.repo) ++ [ghSummaryId r.owner r.repo]

/-- A fetch environment in which exactly one documentation page resolves,
used to exercise the claims on concrete runs. -/
def oneDocEnv : FetchEnv :=
  { page := fun p =>
      if p = "/docs/sc_solidity".toList then
        some { title := "Solidity".toList, content := "write contracts".toList }
      else none
    repoInfo := fun _ _ => none
    repoFile := fun _ _ _ => none
    nowIso := "2026-01-01".toList }

/-- A fetch environment in which one page source fails while another
succeeds within the same pass. -/
def mixedEnv : FetchEnv :=
  { page := fun p =>
      if p = "/docs/ch_transactions".toList then
        some { title := "Transactions".toList, content := "tx docs".toList }
      else none
    repoInfo := fun _ _ => none
    repoFile := fun _ _ _ => none
    nowIso := "2026-01-01".toList }

def sampleDocA : CrossDocument :=
  { id := "sc_solidity".toList, title := "Solidity".toList,
    content := "first fetch".toList, url := baseUrl ++ "/docs/sc_solidity".toList,
    category := "smart-contract".toList, lastModified := none, type := none }

def sampleDocB : CrossDocument :=
  { id := "sc_solidity".toList, title := "Solidity".toList,
    content := "second fetch".toList, url := baseUrl ++ "/docs/sc_solidity".toList,
    category := "smart-contract".toList, lastModified := none, type := none }

def emptyEnv : FetchEnv :=
  { page := fun _ => none
    repoInfo := fun _ _ => none
    repoFile := fun _ _ _ => none
    nowIso := "2026-01-01".toList }

def sampleResp : ToolResponse :=
  { content := [{ type := "text".toList, text := "ok".toList }] }

/-- Document d is ranked strictly above document e in a result list: some
result for d precedes some result for e. -/
def RankedAbove (out : List SearchResult) (d e : CrossDocument) : Prop :=
  ∃ r1 r2 : SearchResult, r1.document = d ∧ r2.document = e ∧
    List.Sublist [r1, r2] out

/-- A document whose title and content differ, for exercising highlight
extraction: the query matches the title span "Transfer" at indices 6-13. -/
def cexDoc : CrossDocument :=
  { id := "sdkjs_token-transfer".toList
    title := "Token Transfer".toList
    content := "delegate transaction fees".toList
    url := baseUrl ++ "/docs/sdkjs_token-transfer".toList
    category := "sdk-js".toList
    lastModified := none
    type := none }

def cexRes : FuseResult :=
  { item := cexDoc
    score := some 0
    matchList := [{ value := cexDoc.title, indices := [(6, 13)] }] }

/-- An index whose single ranked result matched on the title field. -/
def cexFuse : Str → Nat → List FuseResult := fun _ _ => [cexRes]

/-- An index honouring the result-count limit contract. -/
def wfFuse : Str → Nat → List FuseResult := fun _ n => [cexRes].take n

/-- The matched field text "ab ab" followed by 50 spaces, with the two
matched spans of the query "ab". -/
def dupMatchValue : Str := "ab ab".toList ++ List.replicate 50 ' '

def dupFuseResult : FuseResult :=
  { item := cexDoc
    score := some 0
    matchList := [{ value := dupMatchValue, indices := [(0, 1), (3, 4)] }] }

def chainDocA : CrossDocument :=
  { id := "ch_transactions".toList, title := "Transactions".toList,
    content := "chain transactions".toList,
    url := baseUrl ++ "/docs/ch_transactions".toList,
    category := "chain".toList, lastModified := none, type := none }

def chainDocB : CrossDocument :=
  { id := "ch_fee-delegation".toList, title := "Fee Delegation".toList,
    content := "delegate transaction fees".toList,
    url := baseUrl ++ "/docs/ch_fee-delegation".toList,
    category := "chain".toList, lastModified := none, type := none }

def chainRes1 : FuseResult := { item := chainDocA, score := some 0, matchList := [] }

def chainRes2 : FuseResult := { item := chainDocB, score := some 0, matchList := [] }

/-- An index ranking two chain-category documents in order. -/
def twoResFuse : Str → Nat → List FuseResult := fun _ _ => [chainRes1, chainRes2]

/- ---------------------------------------------------------------------
Theorems
--------------------------------------------------------------------- -/

/- ---------------------------------------------------------------------
Lemmas about the JS Map model
--------------------------------------------------------------------- -/

theorem mapGet_mapSet_self {α : Type} (m : List (Str × α)) (k : Str) (v : α) :
    mapGet (mapSet m k v) k = some v := by
  induction m with
  | nil => simp [mapSet, mapGet]
  | cons hd tl ih =>
    obtain ⟨k1, v1⟩ := hd
    by_cases h : k1 = k
    · simp [mapSet, h, mapGet]
    · simp [mapSet, h, mapGet, ih]

theorem mapGet_mapSet_ne {α : Type} (m : List (Str × α)) (k1 k : Str) (v : α)
    (hne : k1 ≠ k) : mapGet (mapSet m k1 v) k = mapGet m k := by
  induction m with
  | nil => simp [mapSet, mapGet, hne]
  | cons hd tl ih =>
    obtain ⟨k2, v2⟩ := hd
    by_cases h : k2 = k1
    · subst h
      simp [mapSet, mapGet, hne]
    · have hkk1 : ¬k = k1 := fun e => hne e.symm
      by_cases h2 : k2 = k
      · simp [mapSet, h, mapGet, h2, hkk1]
      · simp [mapSet, h, mapGet, h2, ih]

theorem mapKeys_mapSet_mem {α : Type} (m : List (Str × α)) (k : Str) (v : α)
    (h : k ∈ mapKeys m) : mapKeys (mapSet m k v) = mapKeys m := by
  induction m with
  | nil => simp [mapKeys] at h
  | cons hd tl ih =>
    obtain ⟨k1, v1⟩ := hd
    by_cases hk : k1 = k
    · simp [mapSet, hk, mapKeys]
    · simp only [mapKeys, List.map_cons] at h
      rcases List.mem_cons.mp h with h1 | h1
    
      · exact absurd h1.symm hk
      · simp only [mapSet, if_neg hk, mapKeys, List.map_cons]
        rw [show (mapSet tl k v).map Prod.fst = mapKeys (mapSet tl k v) from rfl,
          ih h1]
        rfl

theorem mapKeys_mapSet_not_mem {α : Type} (m : List (Str × α)) (k : Str) (v : α)
    (h : k ∉ mapKeys m) : mapKeys (mapSet m k v) = mapKeys m ++ [k] := by
  induction m with
  | nil => simp [mapSet, mapKeys]
  | cons hd tl ih =>
    obtain ⟨k1, v1⟩ := hd
    simp only [mapKeys, List.map_cons, List.mem_cons, not_or] at h
    have hk : ¬k1 = k := fun e => h.1 e.symm
    simp only [mapSet, if_neg hk, mapKeys, List.map_cons, List.cons_append]
    rw [show (mapSet tl k v).map Prod.fst = mapKeys (mapSet tl k v) from rfl, ih h.2]
    rfl

theorem self_mem_mapKeys_mapSet {α : Type} (m : List (Str × α)) (k : Str) (v : α) :
    k ∈ mapKeys (mapSet m k v) := by
  by_cases h : k ∈ mapKeys m
  · rw [mapKeys_mapSet_mem m k v h]; exact h
  · rw [mapKeys_mapSet_not_mem m k v h]; simp

theorem nodup_mapKeys_mapSet {α : Type} (m : List (Str × α)) (k : Str) (v : α)
    (h : (mapKeys m).Nodup) : (mapKeys (mapSet m k v)).Nodup := by
  by_cases hk : k ∈ mapKeys m
  · rwa [mapKeys_mapSet_mem m k v hk]
  · rw [mapKeys_mapSet_not_mem m k v hk]
    simp [List.nodup_append, h, hk]

theorem mapGet_eq_none_iff {α : Type} (m : List (Str × α)) (k : Str) :
    mapGet m k = none ↔ ∀ v, (k, v) ∉ m := by
  induction m with
  | nil => simp [mapGet]
  | cons hd tl ih =>
    obtain ⟨k1, v1⟩ := hd
    by_cases h : k1 = k
    · subst h
      refine iff_of_false (by simp [mapGet]) ?_
      push_neg
      exact ⟨v1, List.mem_cons_self _ _⟩
    · simp only [mapGet, if_neg h]
      rw [ih]
      constructor
      · intro hv v hm
        rcases List.mem_cons.mp hm with h1 | h1
        · exact h (congrArg Prod.fst h1).symm
        · exact hv v h1
      · intro hv v hm
        exact hv v (List.mem_cons_of_mem _ hm)

theorem mapGet_some_mem {α : Type} (m : List (Str × α)) (k : Str) (v : α)
    (h : mapGet m k = some v) : (k, v) ∈ m := by
  induction m with
  | nil => simp [mapGet] at h
  | cons hd tl ih =>
    obtain ⟨k1, v1⟩ := hd
    by_cases hk : k1 = k
    · subst hk
      simp [mapGet] at h
      subst h
      exact List.mem_cons_self _ _
    · simp only [mapGet, if_neg hk] at h
      exact List.mem_cons_of_mem _ (ih h)

theorem mapGet_of_mem_nodup {α : Type} (m : List (Str × α)) (k : Str) (v : α)
    (hnd : (mapKeys m).Nodup) (h : (k, v) ∈ m) : mapGet m k = some v := by
  induction m with
  | nil => simp at h
  | cons hd tl ih =>
    obtain ⟨k1, v1⟩ := hd
    simp only [mapKeys, List.map_cons, List.nodup_cons] at hnd
    rcases List.mem_cons.mp h with h1 | h1
    · have hk : k = k1 := congrArg Prod.fst h1
      have hv : v = v1 := congrArg Prod.snd h1
      subst hk hv
      simp [mapGet]
    · have hk1 : ¬k1 = k := by
        intro he
        subst he
        have hmem : k1 ∈ List.map Prod.fst tl := List.mem_map.mpr ⟨(k1, v), h1, rfl⟩
        exact hnd.1 hmem
      simp only [mapGet, if_neg hk1]
      exact ih hnd.2 h1

theorem fetchDocument_id (env : FetchEnv) (p : Str) (d : CrossDocument)
    (h : fetchDocument env p = some d) : d.id = generateDocumentId p := by
  simp only [fetchDocument, Option.map_eq_some'] at h
  obtain ⟨pr, _, hd⟩ := h
  rw [← hd]
  rfl

theorem processPages_get_skip (env : FetchEnv) (k : Str) :
    ∀ (ps : List Str) (c : Cache),
      (∀ p ∈ ps, generateDocumentId p = k → env.page p = none) →
      mapGet (processPages env ps c) k = mapGet c k
  | [], _, _ => rfl
  | p :: ps, c, h => by
    have hrest : ∀ q ∈ ps, generateDocumentId q = k → env.page q = none :=
      fun q hq => h q (List.mem_cons_of_mem _ hq)
    cases hf : fetchDocument env p with
    | none =>
      simp only [processPages, hf]
      exact processPages_get_skip env k ps c hrest
    | some d =>
      have hid : d.id = generateDocumentId p := fetchDocument_id env p d hf
      have hne : d.id ≠ k := by
        intro he
        have hnone := h p (List.mem_cons_self _ _) (hid ▸ he)
        simp [fetchDocument, hnone] at hf
      simp only [processPages, hf]
      rw [processPages_get_skip env k ps _ hrest, mapGet_mapSet_ne _ _ _ _ hne]

theorem processPages_get_hit (env : FetchEnv) :
    ∀ (ps : List Str) (c : Cache) (B : Str) (pr : PageRaw),
      B ∈ ps → env.page B = some pr →
      (∀ p ∈ ps, generateDocumentId p = generateDocumentId B → p = B) →
      mapGet (processPages env ps c) (generateDocumentId B) = some (mkPageDoc env B pr)
  | [], _, _, _, hB, _, _ => absurd hB (List.not_mem_nil _)
  | p :: ps, c, B, pr, hB, hpr, hinj => by
    by_cases hpB : p = B
    · subst hpB
      have hf : fetchDocument env p = some (mkPageDoc env p pr) := by
        simp [fetchDocument, hpr]
      simp only [processPages, hf]
      by_cases hBps : p ∈ ps
      · exact processPages_get_hit env ps _ p pr hBps hpr
          (fun q hq => hinj q (List.mem_cons_of_mem _ hq))
      · have hskip : ∀ q ∈ ps, generateDocumentId q = generateDocumentId p → env.page q = none := by
          intro q hq he
          exact absurd (hinj q (List.mem_cons_of_mem _ hq) he ▸ hq) hBps
        rw [processPages_get_skip env (generateDocumentId p) ps _ hskip]
        have hid : (mkPageDoc env p pr).id = generateDocumentId p := rfl
        rw [← hid, mapGet_mapSet_self]
    · have hBps : B ∈ ps := by
        rcases List.mem_cons.mp hB with h1 | h1
        · exact absurd h1.symm hpB
        · exact h1
      have hrest : ∀ q ∈ ps, generateDocumentId q = generateDocumentId B → q = B :=
        fun q hq => hinj q (List.mem_cons_of_mem _ hq)
      cases hf : fetchDocument env p with
      | none =>
        simp only [processPages, hf]
        exact processPages_get_hit env ps c B pr hBps hpr hrest
      | some d =>
        simp only [processPages, hf]
        exact processPages_get_hit env ps _ B pr hBps hpr hrest

theorem processRepoFiles_get_skip (env : FetchEnv) (owner repo k : Str) :
    ∀ (files : List Str) (c : Cache),
      (∀ f ∈ files, ghFileId owner repo f ≠ k) →
      mapGet (processRepoFiles env owner repo files c) k = mapGet c k
  | [], _, _ => rfl
  | f :: fs, c, h => by
    have hrest : ∀ g ∈ fs, ghFileId owner repo g ≠ k :=
      fun g hg => h g (List.mem_cons_of_mem _ hg)
    cases hf : env.repoFile owner repo f with
    | none =>
      simp only [processRepoFiles, hf]
      exact processRepoFiles_get_skip env owner repo k fs c hrest
    | some cs =>
      obtain ⟨content, sha⟩ := cs
      by_cases hc : content ≠ []
      · simp only [processRepoFiles, hf, if_pos hc]
        rw [processRepoFiles_get_skip env owner repo k fs _ hrest,
          mapGet_mapSet_ne _ _ _ _ (h f (List.mem_cons_self _ _))]
      · simp only [processRepoFiles, hf, if_neg hc]
        exact processRepoFiles_get_skip env owner repo k fs c hrest

theorem fetchGitHubRepository_get_skip (env : FetchEnv) (r : GhRepo) (k : Str) (c : Cache)
    (hsum : ghSummaryId r.owner r.repo ≠ k)
    (hfiles : ∀ f ∈ r.files, ghFileId r.owner r.repo f ≠ k) :
    mapGet (fetchGitHubRepository env r c) k = mapGet c k := by
  cases hi : env.repoInfo r.owner r.repo with
  | none => simp only [fetchGitHubRepository, hi]
  | some info =>
    simp only [fetchGitHubRepository, hi]
    rw [mapGet_mapSet_ne _ _ _ _ hsum]
    exact processRepoFiles_get_skip env r.owner r.repo k r.files c hfiles

theorem processGithub_get_skip (env : FetchEnv) (k : Str) :
    ∀ (rs : List GhRepo) (c : Cache),
      (∀ g ∈ ghDocIds rs, g ≠ k) →
      mapGet (processGithub env rs c) k = mapGet c k
  | [], _, _ => rfl
  | r :: rs, c, h => by
    have hsum : ghSummaryId r.owner r.repo ≠ k := by
      refine h _ ?_
      simp [ghDocIds]
    have hfiles : ∀ f ∈ r.files, ghFileId r.owner r.repo f ≠ k := by
      intro f hf
      refine h _ ?_
      simp [ghDocIds]
      exact Or.inl ⟨f, hf, rfl⟩
    have hrest : ∀ g ∈ ghDocIds rs, g ≠ k := by
      intro g hg
      refine h _ ?_
      simp [ghDocIds] at hg ⊢
      exact Or.inr (Or.inr hg)
    simp only [processGithub]
    rw [processGithub_get_skip env k rs _ hrest]
    exact fetchGitHubRepository_get_skip env r k c hsum hfiles

theorem processPages_nodup (env : FetchEnv) :
    ∀ (ps : List Str) (c : Cache),
      (mapKeys c).Nodup → (mapKeys (processPages env ps c)).Nodup
  | [], _, h => h
  | p :: ps, c, h => by
    cases hf : fetchDocument env p with
    | none =>
      simp only [processPages, hf]
      exact processPages_nodup env ps c h
    | some d =>
      simp only [processPages, hf]
      exact processPages_nodup env ps _ (nodup_mapKeys_mapSet _ _ _ h)

theorem processRepoFiles_nodup (env : FetchEnv) (owner repo : Str) :
    ∀ (files : List Str) (c : Cache),
      (mapKeys c).Nodup → (mapKeys (processRepoFiles env owner repo files c)).Nodup
  | [], _, h => h
  | f :: fs, c, h => by
    cases hf : env.repoFile owner repo f with
    | none =>
      simp only [processRepoFiles, hf]
      exact processRepoFiles_nodup env owner repo fs c h
    | some cs =>
      obtain ⟨content, sha⟩ := cs
      by_cases hc : content ≠ []
      · simp only [processRepoFiles, hf, if_pos hc]
        exact processRepoFiles_nodup env owner repo fs _ (nodup_mapKeys_mapSet _ _ _ h)
      · simp only [processRepoFiles, hf, if_neg hc]
        exact processRepoFiles_nodup env owner repo fs c h

theorem fetchGitHubRepository_nodup (env : FetchEnv) (r : GhRepo) (c : Cache)
    (h : (mapKeys c).Nodup) : (mapKeys (fetchGitHubRepository env r c)).Nodup := by
  cases hi : env.repoInfo r.owner r.repo with
  | none => simpa only [fetchGitHubRepository, hi]
  | some info =>
    simp only [fetchGitHubRepository, hi]
    exact nodup_mapKeys_mapSet _ _ _ (processRepoFiles_nodup env r.owner r.repo r.files c h)

theorem processGithub_nodup (env : FetchEnv) :
    ∀ (rs : List GhRepo) (c : Cache),
      (mapKeys c).Nodup → (mapKeys (processGithub env rs c)).Nodup
  | [], _, h => h
  | r :: rs, c, h => by
    simp only [processGithub]
    exact processGithub_nodup env rs _ (fetchGitHubRepository_nodup env r c h)

/-- The cache gate taken: a call inside the expiry window with a non-empty
cache is a no-op that attempts no source. -/
theorem fetchAllDocuments_fresh (env : FetchEnv) (now : Nat) (st : DocState)
    (h1 : now - st.last < cacheExpiryMs) (h2 : st.cache ≠ []) :
    fetchAllDocuments env now st = (st, []) := by
  simp [fetchAllDocuments, h1, h2]

/-- The cache gate open (expiry elapsed, or empty cache): a full pass runs
and the timestamp is reset to now. -/
theorem fetchAllDocuments_stale (env : FetchEnv) (now : Nat) (st : DocState)
    (h : cacheExpiryMs ≤ now - st.last ∨ st.cache = []) :
    fetchAllDocuments env now st =
      ({ cache := processGithub env repositories (processPages env mainPages st.cache),
         last := now },
       configuredSources) := by
  have hg : ¬(now - st.last < cacheExpiryMs ∧ st.cache ≠ []) := by
    rcases h with h | h
    · exact fun hc => absurd h (not_le.mpr hc.1)
    · exact fun hc => hc.2 h
  simp [fetchAllDocuments, hg]

theorem fetchAllDocuments_nodup (env : FetchEnv) (now : Nat) (st : DocState)
    (h : (mapKeys st.cache).Nodup) :
    (mapKeys (fetchAllDocuments env now st).1.cache).Nodup := by
  by_cases hg : now - st.last < cacheExpiryMs ∧ st.cache ≠ []
  · simpa [fetchAllDocuments, hg]
  · simp only [fetchAllDocuments, if_neg hg]
    exact processGithub_nodup env repositories _ (processPages_nodup env mainPages _ h)

/-- The 28 hard-coded page paths derive 28 distinct document ids. -/
theorem mainPages_ids_nodup : (mainPages.map generateDocumentId).Nodup := by decide

/-- No page-derived id collides with any id the GitHub pass writes. -/
theorem mainPages_ids_disjoint_gh :
    ∀ p ∈ mainPages, generateDocumentId p ∉ ghDocIds repositories := by decide

/- ---------------------------------------------------------------------
Claim theorems: document store
--------------------------------------------------------------------- -/

/-- C1: cache gating.  A call to getAllDocuments or getDocumentById made
less than cacheExpiryMs after a refresh that left the cache non-empty
attempts no fetch and leaves the snapshot and timestamp unchanged; a call
with the expiry elapsed (or an empty cache) runs a full pass over every
configured source and stamps the state with the current time. -/
theorem cache_gating :
    (∀ (env1 env2 : FetchEnv) (t1 t2 : Nat) (st0 : DocState),
      cacheExpiryMs ≤ t1 - st0.last ∨ st0.cache = [] →
      (fetchAllDocuments env1 t1 st0).1.cache ≠ [] →
      t2 - t1 < cacheExpiryMs →
      getAllDocuments env2 t2 (fetchAllDocuments env1 t1 st0).1 =
        ((fetchAllDocuments env1 t1 st0).1,
         (fetchAllDocuments env1 t1 st0).1.cache.map Prod.snd, []) ∧
      ∀ i, getDocumentById env2 t2 (fetchAllDocuments env1 t1 st0).1 i =
        ((fetchAllDocuments env1 t1 st0).1,
         mapGet (fetchAllDocuments env1 t1 st0).1.cache i, [])) ∧
    (∀ (env : FetchEnv) (t : Nat) (st : DocState),
      cacheExpiryMs ≤ t - st.last ∨ st.cache = [] →
      (getAllDocuments env t st).2.2 = configuredSources ∧
      (getAllDocuments env t st).1.last = t) := by
  constructor
  · intro env1 env2 t1 t2 st0 hgate hne hfresh
    have hlast : (fetchAllDocuments env1 t1 st0).1.last = t1 := by
      rw [fetchAllDocuments_stale env1 t1 st0 hgate]
    have hnoop : fetchAllDocuments env2 t2 (fetchAllDocuments env1 t1 st0).1 =
        ((fetchAllDocuments env1 t1 st0).1, []) :=
      fetchAllDocuments_fresh env2 t2 _ (by rw [hlast]; exact hfresh) hne
    constructor
    · simp only [getAllDocuments, hnoop]
    · intro i
      simp only [getDocumentById, hnoop]
  · intro env t st hgate
    constructor
    · simp only [getAllDocuments, fetchAllDocuments_stale env t st hgate]
    · simp only [getAllDocuments, fetchAllDocuments_stale env t st hgate]

theorem cache_gating_witness :
    getAllDocuments oneDocEnv 1000 (fetchAllDocuments oneDocEnv 0 ⟨[], 0⟩).1 =
      ((fetchAllDocuments oneDocEnv 0 ⟨[], 0⟩).1,
       (fetchAllDocuments oneDocEnv 0 ⟨[], 0⟩).1.cache.map Prod.snd, []) ∧
    (getAllDocuments oneDocEnv 3600000 ⟨[], 5⟩).2.2 = configuredSources :=
  ⟨(cache_gating.1 oneDocEnv oneDocEnv 0 1000 ⟨[], 0⟩ (Or.inr rfl) (by decide) (by decide)).1,
   (cache_gating.2 oneDocEnv 3600000 ⟨[], 5⟩ (Or.inr rfl)).1⟩

/-- C2: partial-failure tolerance.  In a refresh pass where source A fails
and source B succeeds, the pass still attempts every configured source, the
snapshot gains B's document, A's slot is exactly what it was before the
refresh, and the timestamp is set to now regardless. -/
theorem partial_failure_tolerance (env : FetchEnv) (t : Nat) (st : DocState)
    (A B : Str) (pr : PageRaw)
    (hgate : cacheExpiryMs ≤ t - st.last ∨ st.cache = [])
    (hA : A ∈ mainPages) (hB : B ∈ mainPages)
    (hfail : env.page A = none) (hok : env.page B = some pr) :
    mapGet (fetchAllDocuments env t st).1.cache (generateDocumentId B) =
      some (mkPageDoc env B pr) ∧
    mapGet (fetchAllDocuments env t st).1.cache (generateDocumentId A) =
      mapGet st.cache (generateDocumentId A) ∧
    (fetchAllDocuments env t st).1.last = t ∧
    (fetchAllDocuments env t st).2 = configuredSources := by
  rw [fetchAllDocuments_stale env t st hgate]
  refine ⟨?_, ?_, rfl, rfl⟩
  · rw [processGithub_get_skip env (generateDocumentId B) repositories _
      (fun g hg he => (mainPages_ids_disjoint_gh B hB) (he ▸ hg))]
    exact processPages_get_hit env mainPages st.cache B pr hB hok
      (fun p hp he => List.inj_on_of_nodup_map mainPages_ids_nodup hp hB he)
  · rw [processGithub_get_skip env (generateDocumentId A) repositories _
      (fun g hg he => (mainPages_ids_disjoint_gh A hA) (he ▸ hg))]
    exact processPages_get_skip env (generateDocumentId A) mainPages st.cache
      (fun p hp he => (List.inj_on_of_nodup_map mainPages_ids_nodup hp hA he) ▸ hfail)

theorem partial_failure_tolerance_witness :
    mapGet (fetchAllDocuments mixedEnv 7 ⟨[], 0⟩).1.cache
        (generateDocumentId "/docs/ch_transactions".toList) =
      some (mkPageDoc mixedEnv "/docs/ch_transactions".toList
        { title := "Transactions".toList, content := "tx docs".toList }) ∧
    mapGet (fetchAllDocuments mixedEnv 7 ⟨[], 0⟩).1.cache
        (generateDocumentId "/docs/sc_solidity".toList) =
      mapGet ([] : Cache) (generateDocumentId "/docs/sc_solidity".toList) ∧
    (fetchAllDocuments mixedEnv 7 ⟨[], 0⟩).1.last = 7 ∧
    (fetchAllDocuments mixedEnv 7 ⟨[], 0⟩).2 = configuredSources :=
  partial_failure_tolerance mixedEnv 7 ⟨[], 0⟩
    "/docs/sc_solidity".toList "/docs/ch_transactions".toList
    { title := "Transactions".toList, content := "tx docs".toList }
    (Or.inr rfl) (by decide) (by decide) (by decide) (by decide)

/-- C8: idempotent identity.  The derived id is a deterministic pure
function of the source path, so a second fetch of the same source writes
into the same slot: the lookup yields the new document, the key set is
unchanged by the second write, and key uniqueness is preserved. -/
theorem idempotent_identity (path : Str) (cache : Cache) (d1 d2 : CrossDocument) :
    (∀ q : Str, q = path → generateDocumentId q = generateDocumentId path) ∧
    mapGet (mapSet (mapSet cache (generateDocumentId path) d1)
      (generateDocumentId path) d2) (generateDocumentId path) = some d2 ∧
    mapKeys (mapSet (mapSet cache (generateDocumentId path) d1)
      (generateDocumentId path) d2) = mapKeys (mapSet cache (generateDocumentId path) d1) ∧
    ((mapKeys cache).Nodup →
      (mapKeys (mapSet (mapSet cache (generateDocumentId path) d1)
        (generateDocumentId path) d2)).Nodup) := by
  refine ⟨fun q hq => by rw [hq], mapGet_mapSet_self .., ?_, ?_⟩
  · exact mapKeys_mapSet_mem _ _ _ (self_mem_mapKeys_mapSet ..)
  · intro h
    exact nodup_mapKeys_mapSet _ _ _ (nodup_mapKeys_mapSet _ _ _ h)

theorem idempotent_identity_witness :
    mapGet (mapSet (mapSet [] (generateDocumentId "/docs/sc_solidity".toList) sampleDocA)
      (generateDocumentId "/docs/sc_solidity".toList) sampleDocB)
      (generateDocumentId "/docs/sc_solidity".toList) = some sampleDocB ∧
    (mapKeys (mapSet (mapSet [] (generateDocumentId "/docs/sc_solidity".toList) sampleDocA)
      (generateDocumentId "/docs/sc_solidity".toList) sampleDocB)).Nodup :=
  ⟨(idempotent_identity "/docs/sc_solidity".toList [] sampleDocA sampleDocB).2.1,
   (idempotent_identity "/docs/sc_solidity".toList [] sampleDocA sampleDocB).2.2.2 (by decide)⟩

/-- C9: not-found contract.  After the refresh that getDocumentById
triggers, an id absent from the snapshot yields none (the model is a total
function: nothing is raised), and an id present in the snapshot yields its
stored document. -/
theorem not_found_contract (env : FetchEnv) (t : Nat) (st : DocState) (i : Str)
    (hnd : (mapKeys st.cache).Nodup) :
    ((getDocumentById env t st i).2.1 = none ↔
      ∀ d, (i, d) ∉ (getDocumentById env t st i).1.cache) ∧
    (∀ d, (i, d) ∈ (getDocumentById env t st i).1.cache →
      (getDocumentById env t st i).2.1 = some d) := by
  have hval : (getDocumentById env t st i).2.1 = mapGet (fetchAllDocuments env t st).1.cache i := rfl
  have hsnap : (getDocumentById env t st i).1 = (fetchAllDocuments env t st).1 := rfl
  rw [hval, hsnap]
  exact ⟨mapGet_eq_none_iff _ i,
    fun d hd => mapGet_of_mem_nodup _ i d (fetchAllDocuments_nodup env t st hnd) hd⟩

theorem not_found_contract_witness :
    (getDocumentById emptyEnv 0 ⟨[], 0⟩ "nonexistent".toList).2.1 = none :=
  ((not_found_contract emptyEnv 0 ⟨[], 0⟩ "nonexistent".toList (by decide)).1).mpr
    (by
      intro d hd
      rw [show (getDocumentById emptyEnv 0 ⟨[], 0⟩ "nonexistent".toList).1.cache = []
        from rfl] at hd
      simp at hd)

/- ---------------------------------------------------------------------
Claim theorems: tool-call facade
--------------------------------------------------------------------- -/

/-- C10: facade error envelope.  Whatever the four handlers do, the call
handler always returns an envelope: a thrown error surfaces as a text
payload prefixed with Error:, well-formedness of handler responses is
preserved, and a request for any name outside the four registered tools
yields the explicit unknown-tool error payload. -/
theorem facade_error_envelope (h1 h2 h3 h4 : Except Str ToolResponse) (name : Str) :
    (∀ m, callToolRaw h1 h2 h3 h4 name = Except.error m →
      handleCallTool h1 h2 h3 h4 name = errorEnvelope m) ∧
    ((∀ r, callToolRaw h1 h2 h3 h4 name = Except.ok r → WellFormedResponse r) →
      WellFormedResponse (handleCallTool h1 h2 h3 h4 name)) ∧
    (name ∉ registeredTools →
      handleCallTool h1 h2 h3 h4 name = errorEnvelope ("Unknown tool: ".toList ++ name)) := by
  refine ⟨?_, ?_, ?_⟩
  · intro m hm
    simp [handleCallTool, hm]
  · intro hok
    cases hc : callToolRaw h1 h2 h3 h4 name with
    | ok r =>
      simp only [handleCallTool, hc]
      exact hok r hc
    | error m =>
      simp only [handleCallTool, hc]
      refine ⟨by simp [errorEnvelope], ?_⟩
      intro c hcm
      simp [errorEnvelope] at hcm
      simp [hcm]
  · intro hun
    have n1 : ¬name = "get-cross-documents".toList :=
      fun e => hun (by rw [e]; simp [registeredTools])
    have n2 : ¬name = "document-by-id".toList :=
      fun e => hun (by rw [e]; simp [registeredTools])
    have n3 : ¬name = "get-testnet-info".toList :=
      fun e => hun (by rw [e]; simp [registeredTools])
    have n4 : ¬name = "get-github-resources".toList :=
      fun e => hun (by rw [e]; simp [registeredTools])
    have hname : callToolRaw h1 h2 h3 h4 name =
        Except.error ("Unknown tool: ".toList ++ name) := by
      unfold callToolRaw
      rw [if_neg n1, if_neg n2, if_neg n3, if_neg n4]
    simp [handleCallTool, hname]

theorem facade_error_envelope_witness :
    handleCallTool (Except.ok sampleResp) (Except.ok sampleResp) (Except.ok sampleResp)
      (Except.ok sampleResp) "bogus-tool".toList =
      errorEnvelope ("Unknown tool: ".toList ++ "bogus-tool".toList) :=
  (facade_error_envelope (Except.ok sampleResp) (Except.ok sampleResp) (Except.ok sampleResp)
    (Except.ok sampleResp) "bogus-tool".toList).2.2 (by decide)

/- ---------------------------------------------------------------------
Lemmas about highlights and segments
--------------------------------------------------------------------- -/

theorem take_drop_seg (l : Str) (m n : Nat) : ∃ u v, l = u ++ (l.take m).drop n ++ v := by
  refine ⟨(l.take m).take n, l.drop m, ?_⟩
  rw [List.take_append_drop n (l.take m), List.take_append_drop m l]

theorem jsSubstring_seg (l : Str) (a b : Nat) : ∃ u v, l = u ++ jsSubstring l a b ++ v := by
  show ∃ u v,
    l = u ++ (l.take (max (min a l.length) (min b l.length))).drop
      (min (min a l.length) (min b l.length)) ++ v
  exact take_drop_seg l _ _

theorem jsTrim_seg (w : Str) : ∃ p s, w = p ++ jsTrim w ++ s := by
  have h1 : List.takeWhile isJsSpace w ++ List.dropWhile isJsSpace w = w :=
    @List.takeWhile_append_dropWhile _ isJsSpace w
  have h2 : List.takeWhile isJsSpace (List.dropWhile isJsSpace w).reverse ++
      List.dropWhile isJsSpace (List.dropWhile isJsSpace w).reverse =
      (List.dropWhile isJsSpace w).reverse :=
    @List.takeWhile_append_dropWhile _ isJsSpace (List.dropWhile isJsSpace w).reverse
  have h3 := congrArg List.reverse h2
  rw [List.reverse_append, List.reverse_reverse] at h3
  refine ⟨List.takeWhile isJsSpace w,
    (List.takeWhile isJsSpace (List.dropWhile isJsSpace w).reverse).reverse, ?_⟩
  rw [List.append_assoc]
  rw [show jsTrim w ++
      (List.takeWhile isJsSpace (List.dropWhile isJsSpace w).reverse).reverse =
      List.dropWhile isJsSpace w from h3]
  exact h1.symm

theorem isSeg_of_append (s l u v : Str) (h : l = u ++ s ++ v) : isSeg s l = true := by
  unfold isSeg
  rw [List.any_eq_true]
  refine ⟨u.length, ?_, ?_⟩
  · rw [List.mem_range, h]
    simp only [List.length_append]
    omega
  · rw [h, List.append_assoc, List.drop_left, List.take_left]
    exact beq_self_eq_true s

theorem isSeg_jsTrim_jsSubstring (l : Str) (a b : Nat) :
    isSeg (jsTrim (jsSubstring l a b)) l = true := by
  obtain ⟨u, v, hw⟩ := jsSubstring_seg l a b
  obtain ⟨p, s, ht⟩ := jsTrim_seg (jsSubstring l a b)
  refine isSeg_of_append _ _ (u ++ p) (s ++ v) ?_
  conv_lhs => rw [hw, ht]
  simp [List.append_assoc]

theorem mem_pushHighlights (value : Str) :
    ∀ (idxs : List (Nat × Nat)) (acc : List Str) (h : Str),
      h ∈ pushHighlights value idxs acc →
      h ∈ acc ∨ ∃ se ∈ idxs, h = jsTrim (highlightWindow value se)
  | [], _, _, hm => Or.inl hm
  | se :: rest, acc, h, hm => by
    simp only [pushHighlights] at hm
    rcases mem_pushHighlights value rest _ h hm with h1 | h1
    · by_cases hc : jsTrim (highlightWindow value se) ≠ [] ∧
          ¬acc.contains (highlightWindow value se)
      · rw [if_pos hc] at h1
        rcases List.mem_append.mp h1 with h2 | h2
        · exact Or.inl h2
        · have he : h = jsTrim (highlightWindow value se) := by simpa using h2
          exact Or.inr ⟨se, List.mem_cons_self _ _, he⟩
      · rw [if_neg hc] at h1
        exact Or.inl h1
    · obtain ⟨se2, hse2, he2⟩ := h1
      exact Or.inr ⟨se2, List.mem_cons_of_mem _ hse2, he2⟩

theorem mem_collectHighlights :
    ∀ (ms : List FuseMatch) (acc : List Str) (h : Str),
      h ∈ collectHighlights ms acc →
      h ∈ acc ∨ ∃ m ∈ ms, ∃ se ∈ m.indices, h = jsTrim (highlightWindow m.value se)
  | [], _, _, hm => Or.inl hm
  | m :: ms, acc, h, hm => by
    simp only [collectHighlights] at hm
    rcases mem_collectHighlights ms _ h hm with h1 | h1
    · by_cases hv : m.value ≠ []
      · rw [if_pos hv] at h1
        rcases mem_pushHighlights m.value m.indices acc h h1 with h2 | h2
        · exact Or.inl h2
        · obtain ⟨se, hse, he⟩ := h2
          exact Or.inr ⟨m, List.mem_cons_self _ _, se, hse, he⟩
      · rw [if_neg hv] at h1
        exact Or.inl h1
    · obtain ⟨m2, hm2, rest⟩ := h1
      exact Or.inr ⟨m2, List.mem_cons_of_mem _ hm2, rest⟩

theorem mem_extractHighlights (r : FuseResult) (q h : Str)
    (hm : h ∈ extractHighlights r q) :
    ∃ m ∈ r.matchList, ∃ se ∈ m.indices, h = jsTrim (highlightWindow m.value se) := by
  have hm2 : h ∈ collectHighlights r.matchList [] := List.mem_of_mem_take hm
  rcases mem_collectHighlights r.matchList [] h hm2 with h1 | h1
  · simp at h1
  · exact h1

theorem extractHighlights_length (r : FuseResult) (q : Str) :
    (extractHighlights r q).length ≤ 3 :=
  List.length_take_le 3 (collectHighlights r.matchList [])

theorem mem_searchDocuments (fs : Str → Nat → List FuseResult) (q c : Str) (l : Nat)
    (s : SearchResult) (hs : s ∈ searchDocuments fs q c l) :
    ∃ r ∈ fs q (min l 50), s = mkSearchResult q r := by
  simp only [searchDocuments] at hs
  have hs2 := List.mem_of_mem_take hs
  rw [List.mem_map] at hs2
  obtain ⟨r, hr, he⟩ := hs2
  refine ⟨r, ?_, he.symm⟩
  by_cases hc : c = "all".toList
  · rw [if_pos hc] at hr
    exact hr
  · rw [if_neg hc] at hr
    exact List.mem_of_mem_filter hr

/-- Two elements that survive a post-filter keep their relative order even
under a preceding truncation: the pair embeds into the truncated filtered
list because the filtered prefix of the truncation is itself a prefix of
the truncation of the filtered list. -/
theorem sublist_pair_take_filter {α : Type} (p : α → Bool) (x y : α) (n : Nat)
    (L : List α) (hx : p x = true) (hy : p y = true)
    (h : List.Sublist [x, y] (L.take n)) :
    List.Sublist [x, y] ((L.filter p).take n) := by
  have h1 : List.Sublist [x, y] ((L.take n).filter p) := by
    have h2 := List.Sublist.filter p h
    simpa [List.filter, hx, hy] using h2
  have hle : ((L.take n).filter p).length ≤ n :=
    le_trans (List.length_filter_le _ _) (List.length_take_le n L)
  have hsplit : (L.filter p).take n =
      (L.take n).filter p ++
        ((L.drop n).filter p).take (n - ((L.take n).filter p).length) := by
    conv_lhs => rw [← List.take_append_drop n L]
    rw [List.filter_append, List.take_append_eq_append_take,
      List.take_of_length_le hle]
  rw [hsplit]
  exact h1.trans (List.sublist_append_left _ _)

/- ---------------------------------------------------------------------
Claim theorems: search pipeline
--------------------------------------------------------------------- -/

/-- C3: the category post-filter never reorders.  If documents d and e both
carry category c and d is ranked above e in the unfiltered search for a
query, then the search filtered by c also ranks d above e (both in fact
survive the filter in order). -/
theorem category_filter_order (fs : Str → Nat → List FuseResult) (q : Str) (c : Str)
    (l : Nat) (d e : CrossDocument)
    (hd : d.category = c) (he : e.category = c)
    (hab : RankedAbove (searchDocuments fs q "all".toList l) d e) :
    RankedAbove (searchDocuments fs q c l) d e := by
  by_cases hc : c = "all".toList
  · rw [hc]
    exact hab
  · obtain ⟨r1, r2, h1, h2, hsub⟩ := hab
    have hunf : searchDocuments fs q "all".toList l =
        (((fs q (min l 50)).take l).map (mkSearchResult q)) := by
      simp [searchDocuments, List.map_take]
    rw [hunf] at hsub
    obtain ⟨t, htsub, hteq⟩ := List.sublist_map_iff.mp hsub
    rcases t with _ | ⟨f1, t2⟩
    · simp at hteq
    rcases t2 with _ | ⟨f2, t3⟩
    · simp at hteq
    rcases t3 with _ | ⟨f3, t4⟩
    swap
    · simp at hteq
    rw [List.map_cons, List.map_cons, List.map_nil] at hteq
    injection hteq with e1 htl
    injection htl with e2 hnil
    have hp1 : (f1.item.category == c) = true := by
      have hi : f1.item = d := by rw [← h1, e1]; rfl
      rw [hi, hd]
      exact beq_self_eq_true c
    have hp2 : (f2.item.category == c) = true := by
      have hi : f2.item = e := by rw [← h2, e2]; rfl
      rw [hi, he]
      exact beq_self_eq_true c
    have key := sublist_pair_take_filter (fun r => r.item.category == c) f1 f2 l
      (fs q (min l 50)) hp1 hp2 htsub
    refine ⟨mkSearchResult q f1, mkSearchResult q f2, ?_, ?_, ?_⟩
    · rw [← e1]; exact h1
    · rw [← e2]; exact h2
    · have hfil : searchDocuments fs q c l =
          (((fs q (min l 50)).filter (fun r => r.item.category == c)).take l).map
            (mkSearchResult q) := by
        simp only [searchDocuments, if_neg hc]
        rw [List.map_take]
      rw [hfil]
      exact List.Sublist.map (mkSearchResult q) key

/-- C4: limit clamp.  Under the index's limit contract, searchDocuments
returns at most min(limit, 50) results for any query and category; in
particular a request with limit 1000 yields at most 50. -/
theorem limit_clamp (fs : Str → Nat → List FuseResult)
    (hlen : ∀ q n, (fs q n).length ≤ n) (q c : Str) (l : Nat) :
    (searchDocuments fs q c l).length ≤ min l 50 := by
  have hL : (fs q (min l 50)).length ≤ min l 50 := hlen q (min l 50)
  by_cases hc : c = "all".toList
  · simp only [searchDocuments, if_pos hc, List.length_take, List.length_map]
    exact le_trans (min_le_right _ _) hL
  · simp only [searchDocuments, if_neg hc, List.length_take, List.length_map]
    exact le_trans (min_le_right _ _) (le_trans (List.length_filter_le _ _) hL)

/-- C7: the 50-cap precedes the category post-filter.  For a category other
than "all" (and an index honouring its limit contract) the output is
exactly the matching-category members, in rank order, of the top
min(limit, 50) matches across all categories - so a filtered search can
return fewer than limit results even when more documents of that category
match. -/
theorem cap_before_category (fs : Str → Nat → List FuseResult) (q c : Str) (l : Nat)
    (hc : c ≠ "all".toList)
    (hlen : (fs q (min l 50)).length ≤ min l 50) :
    searchDocuments fs q c l =
      ((fs q (min l 50)).filter (fun r => r.item.category == c)).map
        (mkSearchResult q) := by
  simp only [searchDocuments, if_neg hc]
  apply List.take_of_length_le
  rw [List.length_map]
  exact le_trans (List.length_filter_le _ _) (le_trans hlen (min_le_left _ _))

theorem cexFuse_wf : MatchesWF cexFuse := by
  intro q n r hr m hm
  simp [cexFuse] at hr
  subst hr
  simp [cexRes] at hm
  subst hm
  exact Or.inl rfl

/-- C5 counterexample: with a (contract-conforming) index reporting a title
match, the returned highlight "Token Transfer" is not a substring of the
result's document content. -/
theorem highlight_content_cex :
    MatchesWF cexFuse ∧
    ∃ r ∈ searchDocuments cexFuse "transfer".toList "all".toList 10,
      ∃ h ∈ r.highlights, isSeg h r.document.content = false :=
  ⟨cexFuse_wf, by decide⟩

/-- C5 amended: every result carries at most 3 highlights, and each
highlight is a whitespace-trimmed substring of the matched field's text -
the result's document title, content, or category (not necessarily the
content). -/
theorem highlight_bound_amended (fs : Str → Nat → List FuseResult)
    (hwf : MatchesWF fs) (q c : Str) (l : Nat) (r : SearchResult)
    (hr : r ∈ searchDocuments fs q c l) :
    r.highlights.length ≤ 3 ∧
    ∀ h ∈ r.highlights,
      isSeg h r.document.title = true ∨ isSeg h r.document.content = true ∨
        isSeg h r.document.category = true := by
  obtain ⟨fr, hfr, hre⟩ := mem_searchDocuments fs q c l r hr
  subst hre
  constructor
  · exact extractHighlights_length fr q
  · intro h hh
    obtain ⟨m, hm, se, hse, heq⟩ := mem_extractHighlights fr q h hh
    have hseg : isSeg h m.value = true := by
      rw [heq]
      show isSeg
        (jsTrim (jsSubstring m.value (se.1 - 50) (min m.value.length (se.2 + 50))))
        m.value = true
      exact isSeg_jsTrim_jsSubstring m.value _ _
    have hdoc : (mkSearchResult q fr).document = fr.item := rfl
    rcases hwf q (min l 50) fr hfr m hm with hv | hv | hv
    · exact Or.inl (by rw [hdoc, ← hv]; exact hseg)
    · exact Or.inr (Or.inl (by rw [hdoc, ← hv]; exact hseg))
    · exact Or.inr (Or.inr (by rw [hdoc, ← hv]; exact hseg))

theorem highlight_bound_amended_witness :
    (mkSearchResult "transfer".toList cexRes).highlights.length ≤ 3 :=
  (highlight_bound_amended cexFuse cexFuse_wf "transfer".toList "all".toList 10
    (mkSearchResult "transfer".toList cexRes) (by decide)).1

/-- C6: evaluating extractHighlights at a match whose two context windows
trim to the same text.  The de-duplication check compares the raw window
against the stored trimmed highlights, so the exact repeat "ab ab" is kept
twice. -/
theorem highlight_dedup_eval :
    extractHighlights dupFuseResult "ab".toList = ["ab ab".toList, "ab ab".toList] := by
  decide

theorem category_filter_order_witness :
    RankedAbove (searchDocuments twoResFuse "transactions".toList "chain".toList 10)
      chainDocA chainDocB :=
  category_filter_order twoResFuse "transactions".toList "chain".toList 10 chainDocA chainDocB
    rfl rfl
    ⟨mkSearchResult "transactions".toList chainRes1,
     mkSearchResult "transactions".toList chainRes2, rfl, rfl, by
       rw [show searchDocuments twoResFuse "transactions".toList "all".toList 10 =
         [mkSearchResult "transactions".toList chainRes1,
          mkSearchResult "transactions".toList chainRes2] from by decide]⟩

theorem limit_clamp_witness :
    (searchDocuments wfFuse "transfer".toList "all".toList 1000).length ≤ min 1000 50 :=
  limit_clamp wfFuse (fun _ n => List.length_take_le n _) "transfer".toList "all".toList 1000

theorem cap_before_category_witness :
    searchDocuments wfFuse "transfer".toList "chain".toList 10 =
      ((wfFuse "transfer".toList (min 10 50)).filter
        (fun r => r.item.category == "chain".toList)).map (mkSearchResult "transfer".toList) :=
  cap_before_category wfFuse "transfer".toList "chain".toList 10 (by decide) (by decide)
